import Mathlib

/-!
Verification development for the `hls-llm-doc-qa` document ingestion notebook
(`02-Data-prep-with-LangChain.py`).

The notebook itself is orchestration: it wires a character-based text splitter
(`JslCharSplitter`, delegating to an external `DocumentCharacterTextSplitter`
stage), an embedder and a Chroma vector store.  The definitions below embed

* the notebook-level code that is present in the source file
  (`split_hay_doc`, `split_hay_docs`, `JslCharSplitter.__init__`, the
  directory-cleanup statements, and the sequence of top-level name bindings),
  translated directly from the Python; and
* the chunking / ingestion / query algorithms that the source only invokes
  through external libraries, modelled from the specification document
  (each such definition is marked `Modelled from the spec:`).

Text is represented as `List Char`.
-/

set_option autoImplicit false

/-- Text is a list of characters; chunk sizes are measured in characters. -/
abbrev Text := List Char

/-- Metadata of a document: a finite map of string keys to string values,
represented as an association list. -/
abbrev Metadata := List (String × String)

/-- A document: raw text content plus metadata (LangChain `Document` with
`page_content` and `metadata`). -/
structure Doc where
  page_content : Text
  metadata : Metadata
deriving DecidableEq, Repr

/-! ### Splitting on a separator pattern

Modelled from the spec: the splitter's step 1, "for the current text and the
current separator pattern, split into raw pieces".  Separators are kept
attached as a prefix of the following piece, so that concatenating the pieces
restores the text (this realizes `keep_separators = true`; when
`keep_separators = false` the attached separator is dropped afterwards by
`adjustPieces`). -/

/-- Auxiliary splitter: walks the text one character at a time.  `cur` is the
current piece accumulated in reverse; `skip` counts characters of an already
matched separator that still have to be copied into the current piece without
looking for a new separator occurrence. -/
def splitKeepAux (sep : Text) : Text → Text → Nat → List Text
  | [], cur, _ => [cur.reverse]
  | c :: rest, cur, Nat.succ k => splitKeepAux sep rest (c :: cur) k
  | c :: rest, cur, 0 =>
    if (c :: rest).take sep.length = sep then
      cur.reverse :: splitKeepAux sep rest [c] (sep.length - 1)
    else
      splitKeepAux sep rest (c :: cur) 0

/-- Modelled from the spec: split a text into raw pieces on a separator
pattern.  The degenerate pattern `''` (the empty list) means "split anywhere":
every character becomes its own piece.  For a nonempty separator, each
occurrence starts a new piece and the separator text stays attached to the
front of that piece. -/
def splitPat (sep : Text) (t : Text) : List Text :=
  if sep = [] then t.map (fun c => [c]) else splitKeepAux sep t [] 0

/-- Modelled from the spec: the `keep_separators` policy.  When separators are
kept the pieces are returned as produced (separator attached); otherwise the
attached separator is removed from every piece after the first. -/
def adjustPieces (sep : Text) (keepSep : Bool) (pieces : List Text) : List Text :=
  if keepSep then pieces
  else
    match pieces with
    | [] => []
    | p :: ps => p :: ps.map (fun q => q.drop sep.length)

/-! ### Hard cut -/

/-- Fuel-driven hard cut: split a text into consecutive blocks of exactly
`size` characters (the final block may be shorter).  The fuel argument makes
the recursion structural; `size` characters are consumed per step, so fuel
`t.length` is always sufficient when `0 < size`. -/
def hardCutF (size : Nat) : Nat → Text → List Text
  | _, [] => []
  | 0, t => [t]
  | Nat.succ f, t => t.take size :: hardCutF size f (t.drop size)

/-- Modelled from the spec: "if no patterns remain, split the piece at the
exact `chunk_size` boundary as a last resort (hard cut, no semantic
awareness)". -/
def hardCut (size : Nat) (t : Text) : List Text :=
  hardCutF size t.length t

/-! ### Greedy recombination with overlap -/

/-- The last `n` characters of a text — the seed for the next buffer. -/
def lastN (n : Nat) (l : Text) : Text :=
  l.drop (l.length - n)

/-- Emit the buffer as a chunk if it is nonempty.  The first component of an
emitted pair records how many leading characters of the chunk are overlap
carried over from the previous chunk. -/
def emitAnn (sl : Nat) (buf : Text) : List (Nat × Text) :=
  if buf = [] then [] else [(sl, buf)]

/-- Modelled from the spec: step 2 of the chunking algorithm, "greedily
accumulate consecutive pieces into a running buffer while the next piece still
fits; when adding the next piece would exceed `chunk_size`, emit the buffer as
a Chunk and start a new buffer seeded with the last `chunk_overlap` units of
the previous buffer" — the seed is shrunk when necessary so that the new
buffer never exceeds `chunk_size` — and step 3, "if a single raw piece alone
exceeds `chunk_size`, recurse into it" (`recur` is the recursion into the
remaining patterns).  The buffer is the pair `(sl, buf)` where `sl` is the
length of the overlap seed at the front of `buf`. -/
def mergeAnn (size overlap : Nat) (recur : Text → List (Nat × Text)) :
    List Text → Nat → Text → List (Nat × Text)
  | [], sl, buf => emitAnn sl buf
  | p :: ps, sl, buf =>
    if size < p.length then
      emitAnn sl buf ++ recur p ++ mergeAnn size overlap recur ps 0 []
    else if buf.length + p.length ≤ size then
      mergeAnn size overlap recur ps sl (buf ++ p)
    else
      let s := lastN (min overlap (size - p.length)) buf
      (sl, buf) :: mergeAnn size overlap recur ps s.length (s ++ p)

/-- Modelled from the spec: the recursive splitting algorithm of section 4.1.
Try the separator patterns in order; split on the current pattern, greedily
recombine pieces up to `chunk_size`, recurse into oversized pieces with the
remaining patterns, and hard-cut at the `chunk_size` boundary when no patterns
remain.  Each emitted chunk is annotated with the length of its leading
overlap seed. -/
def chunkAnn (size overlap : Nat) (keepSep : Bool) : List Text → Text → List (Nat × Text)
  | [], t => (hardCut size t).map (fun c => (0, c))
  | sep :: ps, t =>
    mergeAnn size overlap (fun u => chunkAnn size overlap keepSep ps u)
      (adjustPieces sep keepSep (splitPat sep t)) 0 []

/-! ### Whitespace trimming -/

/-- Whitespace characters for trimming. -/
def isWhite (c : Char) : Bool :=
  c == ' ' || c == '\n' || c == '\t' || c == '\r'

/-- Strip leading and trailing whitespace from a text. -/
def trimText (t : Text) : Text :=
  ((t.dropWhile isWhite).reverse.dropWhile isWhite).reverse

/-! ### The configured splitter -/

/-- The configuration record of `JslCharSplitter.__init__`
(source lines 156–163); field names follow the Python keyword arguments,
including the source's spelling `keep_seperators`. -/
structure ChunkerConfig where
  chunk_overlap : Nat
  chunk_size : Nat
  explode_splits : Bool
  keep_seperators : Bool
  patterns_are_regex : Bool
  split_patterns : List Text
  trim_whitespace : Bool
deriving DecidableEq, Repr

/-- The chunks (with overlap annotations) produced for a text under a
configuration. -/
def chunkAnnOf (cfg : ChunkerConfig) (t : Text) : List (Nat × Text) :=
  chunkAnn cfg.chunk_size cfg.chunk_overlap cfg.keep_seperators cfg.split_patterns t

/-- Modelled from the spec: the chunk contents emitted by the configured
splitter pipeline for one text (`pipe.annotate(text)['splits']` in the
source); trimming is applied per emitted chunk when `trim_whitespace` is
set. -/
def splitterChunks (cfg : ChunkerConfig) (t : Text) : List Text :=
  let cs := (chunkAnnOf cfg t).map Prod.snd
  if cfg.trim_whitespace then cs.map trimText else cs

/-- The default configuration of `JslCharSplitter.__init__`
(source lines 156–163). -/
def defaultChunkerConfig : ChunkerConfig :=
  { chunk_overlap := 2
    chunk_size := 20
    explode_splits := true
    keep_seperators := true
    patterns_are_regex := false
    split_patterns := [['\n', '\n'], ['\n'], [' '], []]
    trim_whitespace := true }
/-! ### The notebook's splitter wrapper (translated from the source) -/

/-- The light pipeline built in `JslCharSplitter.__init__` (source lines
182–186): a document assembler followed by the configured
`DocumentCharacterTextSplitter` stage.  The document assembler is the
identity on raw text; the splitter stage is external library code, modelled
from the spec by `splitterChunks`. -/
structure LightPipeline where
  cfg : ChunkerConfig
deriving DecidableEq, Repr

/-- `pipe.annotate(text)['splits']` (source line 149): run the pipeline on a
raw text and read off the splits. -/
def LightPipeline.splits (pipe : LightPipeline) (t : Text) : List Text :=
  splitterChunks pipe.cfg t

/-- `split_hay_doc` (source lines 147–149): one LangChain `Document` per
split, each carrying `doc.metadata`. -/
def split_hay_doc (pipe : LightPipeline) (doc : Doc) : List Doc :=
  (pipe.splits doc.page_content).map
    (fun s => { page_content := s, metadata := doc.metadata })

/-- `split_hay_docs` (source lines 151–152): flatten the per-document
splits of a document list. -/
def split_hay_docs (pipe : LightPipeline) (docs : List Doc) : List Doc :=
  (docs.map (split_hay_doc pipe)).flatten

/-- Error type postulated by the spec's error taxonomy (section 7) for invalid
chunking parameters. -/
inductive SplitterError where
  | configurationError
deriving DecidableEq, Repr

/-- The constructed splitter object: it holds the pipeline built from the
constructor arguments. -/
structure JslCharSplitter where
  pipe : LightPipeline
deriving DecidableEq, Repr

/-- `JslCharSplitter.__init__` (source lines 156–186), shallowly embedded:
the body only stores the parameters into the splitter pipeline stages; it
contains no validation of `chunk_overlap` against `chunk_size` (or of any
other parameter), so construction never raises.  The result type admits a
`SplitterError.configurationError` so that the spec's claimed fail-fast
behaviour is expressible. -/
def initJslCharSplitter (chunk_overlap chunk_size : Nat)
    (explode_splits keep_seperators patterns_are_regex : Bool)
    (split_patterns : List Text) (trim_whitespace : Bool) :
    Except SplitterError JslCharSplitter :=
  Except.ok
    { pipe :=
      { cfg :=
        { chunk_overlap := chunk_overlap
          chunk_size := chunk_size
          explode_splits := explode_splits
          keep_seperators := keep_seperators
          patterns_are_regex := patterns_are_regex
          split_patterns := split_patterns
          trim_whitespace := trim_whitespace } } }

/-- `JslCharSplitter.split_documents` (source lines 188–189). -/
def JslCharSplitter.split_documents (s : JslCharSplitter) (docs : List Doc) : List Doc :=
  split_hay_docs s.pipe docs

/-! ### The notebook's top-level name bindings (translated from the source)

Python resolves a bare name at evaluation time against the set of names bound
so far; an unbound name raises `NameError`.  The lists below record, in
program order, every top-level name the notebook binds. -/

/-- Names provided by the Databricks notebook runtime before any cell runs. -/
def runtimeNames : List String := ["dbutils", "display"]

/-- Top-level names bound by the notebook cells before the ingestion
statement `db = Chroma.from_documents(...)` at source line 209, in program
order (assignments, imports, `def` and `class` statements). -/
def boundBeforeIngestion : List String :=
  runtimeNames ++
  ["pdf_path", "source_pdfs", "db_persist_path", "embeddings_model",
   "os", "shutil", "modified_pdf_path",
   "Document", "PyPDFDirectoryLoader", "loader_path", "pdf_loader", "docs",
   "nlp", "split_hay_doc", "split_hay_docs", "JslCharSplitter",
   "jsl_splitter", "texts",
   "Chroma", "embedding_retrieval", "embeddings", "sample_query"]

/-- Every top-level name bound anywhere in the notebook (the bindings above
plus the later ones at source lines 209, 216, 238–244). -/
def allBoundNames : List String :=
  boundBeforeIngestion ++ ["db", "similar_docs"]

/-- Outcome of resolving the free names of an expression. -/
inductive PyResult where
  | ok
  | nameError (n : String)
deriving DecidableEq, Repr

/-- Resolve a list of free names against an environment, failing with
`NameError` on the first unbound one (Python's evaluation of a bare name). -/
def evalFreeNames (env : List String) (ns : List String) : PyResult :=
  match ns.find? (fun n => !(env.contains n)) with
  | some n => PyResult.nameError n
  | none => PyResult.ok

/-- The free names of the ingestion expression
`Chroma.from_documents(collection_name="hls_docs", documents=documents,
embedding=embeddings, persist_directory=db_persist_path)` at source line 209,
in evaluation order. -/
def ingestionFreeNames : List String :=
  ["Chroma", "documents", "embeddings", "db_persist_path"]

/-! ### The notebook's directory cleanup (translated from the source)

The file system is modelled as the list of existing paths; a path `p` lies in
the subtree of `d` when `d` is a string prefix of `p`. -/

/-- `p` lies in the subtree rooted at `dir` (including `dir` itself). -/
def underPath (dir p : String) : Bool :=
  dir.data.isPrefixOf p.data

/-- `shutil.rmtree(dir)` / `rm -r dir`: remove the directory and everything
under it; removal of a missing tree is a no-op (matching `ignore_errors=True`
and `|| true` in the source). -/
def rmTree (dir : String) (fs : List String) : List String :=
  fs.filter (fun p => !(underPath dir p))

/-- `os.makedirs(dir)` / `mkdir -p dir`: ensure the directory path exists. -/
def makeDirs (dir : String) (fs : List String) : List String :=
  if fs.contains dir then fs else fs ++ [dir]

/-- The notebook's cleanup statements, in program order:
source lines 79–81 (`if os.path.exists(pdf_path): shutil.rmtree(pdf_path,
ignore_errors=True)` then `os.makedirs(pdf_path)`) and source line 114
(`!(rm -r {db_persist_path} || true) && mkdir -p {db_persist_path}`).
The notebook has no rebuild flag: these statements run on every execution. -/
def notebookCleanup (pdfPath dbPath : String) (fs : List String) : List String :=
  let fs1 := if fs.contains pdfPath then rmTree pdfPath fs else fs
  let fs2 := makeDirs pdfPath fs1
  makeDirs dbPath (rmTree dbPath fs2)

/-! ### Ingestion pipeline and query path (modelled from the spec)

The notebook delegates storage to `Chroma.from_documents` and search to
`db.similarity_search`, both external library code; sections 4.2, 4.3 and 6
of the spec give their contracts, which are modelled here.  Embeddings are
abstract fixed-length integer vectors and the distance function is an
abstract parameter. -/

/-- A named, persistent collection of (chunk, embedding) pairs, kept in
insertion order. -/
structure Collection where
  name : String
  entries : List (Doc × List Int)
deriving DecidableEq, Repr

/-- Embed a list of chunks, aborting on the first embedding failure
(spec section 4.2: no partial silent success). -/
def embedAll (embed : Text → Except String (List Int)) :
    List Doc → Except String (List (Doc × List Int))
  | [] => Except.ok []
  | c :: cs =>
    match embed c.page_content with
    | Except.error e => Except.error e
    | Except.ok v =>
      match embedAll embed cs with
      | Except.error e => Except.error e
      | Except.ok rest => Except.ok ((c, v) :: rest)

/-- Modelled from the spec: `ingest(documents, chunker_config, embedder,
collection_name, persistence_path) -> count_of_chunks_stored` (section 4.2;
the storage backend invoked through `Chroma.from_documents` at source line
209 is external library code).  Chunks the documents, embeds every chunk,
appends the (chunk, embedding) pairs to the collection and returns the number
of chunks stored. -/
def ingest (pipe : LightPipeline) (embed : Text → Except String (List Int))
    (docs : List Doc) (col : Collection) : Except String (Nat × Collection) :=
  let chunks := split_hay_docs pipe docs
  match embedAll embed chunks with
  | Except.error e => Except.error e
  | Except.ok pairs =>
    Except.ok (pairs.length, { col with entries := col.entries ++ pairs })

/-- The spec's result ordering for queries (section 4.3): increasing
distance, ties broken by insertion index.  An element is the triple
(insertion index, chunk, distance). -/
def queryOrder (a b : Nat × Doc × Nat) : Prop :=
  a.2.2 < b.2.2 ∨ (a.2.2 = b.2.2 ∧ a.1 ≤ b.1)

instance : DecidableRel queryOrder := fun a b => by
  unfold queryOrder; infer_instance

instance : IsTotal (Nat × Doc × Nat) queryOrder :=
  ⟨fun a b => by unfold queryOrder; omega⟩

instance : IsTrans (Nat × Doc × Nat) queryOrder :=
  ⟨fun a b c hab hbc => by unfold queryOrder at *; omega⟩

/-- Score every stored entry against a query vector, remembering each
entry's insertion index. -/
def scoredEntries (dist : List Int → List Int → Nat) (qv : List Int)
    (col : Collection) : List (Nat × Doc × Nat) :=
  col.entries.enum.map (fun ie => (ie.1, ie.2.1, dist qv ie.2.2))

/-- Modelled from the spec: the query path (section 4.3; the search invoked
through `db.similarity_search` at source line 216 is external library code).
Embeds the query, scores all stored entries, sorts them stably by increasing
distance and returns the first `top_k`. -/
def queryCollection (embed : Text → List Int) (dist : List Int → List Int → Nat)
    (col : Collection) (q : Text) (top_k : Nat) : List (Nat × Doc × Nat) :=
  (List.insertionSort queryOrder (scoredEntries dist (embed q) col)).take top_k


/-! ### Lemmas about the hard cut -/

theorem hardCutF_length_le {size : Nat} (hs : 0 < size) :
    ∀ f t, t.length ≤ f → ∀ c ∈ hardCutF size f t, c.length ≤ size := by
  intro f
  induction f with
  | zero =>
    intro t ht c hc
    match t, ht with
    | [], _ => simp [hardCutF] at hc
  | succ f ih =>
    intro t ht c hc
    match t with
    | [] => simp [hardCutF] at hc
    | a :: t' =>
      simp only [hardCutF, List.mem_cons] at hc
      rcases hc with rfl | hc
      · simp [List.length_take]
      · refine ih _ ?_ c hc
        have := (a :: t').length_drop size
        simp only [List.length_cons] at ht this
        omega

theorem hardCutF_flatten {size : Nat} :
    ∀ f t, (hardCutF size f t).flatten = t := by
  intro f
  induction f with
  | zero =>
    intro t
    match t with
    | [] => simp [hardCutF]
    | a :: t' => simp [hardCutF]
  | succ f ih =>
    intro t
    match t with
    | [] => simp [hardCutF]
    | a :: t' => simp [hardCutF, ih]

theorem hardCutF_ne_nil {size : Nat} :
    ∀ f t, t ≠ [] → hardCutF size f t ≠ [] := by
  intro f t ht
  match f, t with
  | 0, a :: t' => simp [hardCutF]
  | Nat.succ f, a :: t' => simp [hardCutF]

theorem hardCutF_all_le {size : Nat} :
    ∀ f t, t.length ≤ size → hardCutF size f t = if t = [] then [] else [t] := by
  intro f
  induction f with
  | zero =>
    intro t ht
    match t with
    | [] => simp [hardCutF]
    | a :: t' => simp [hardCutF]
  | succ f ih =>
    intro t ht
    match t with
    | [] => simp [hardCutF]
    | a :: t' =>
      have h1 : (a :: t').take size = a :: t' := List.take_of_length_le ht
      have h2 : (a :: t').drop size = [] := List.drop_eq_nil_of_le ht
      simp [hardCutF, h1, h2, ih]

theorem hardCutF_dropLast_length {size : Nat} (hs : 0 < size) :
    ∀ f t, t.length ≤ f → ∀ c ∈ (hardCutF size f t).dropLast, c.length = size := by
  intro f
  induction f with
  | zero =>
    intro t ht c hc
    match t, ht with
    | [], _ => simp [hardCutF] at hc
  | succ f ih =>
    intro t ht c hc
    match t with
    | [] => simp [hardCutF] at hc
    | a :: t' =>
      have heq : hardCutF size (Nat.succ f) (a :: t') =
          (a :: t').take size :: hardCutF size f ((a :: t').drop size) := rfl
      rw [heq] at hc
      by_cases hrest : (a :: t').drop size = []
      · have h0 : hardCutF size f ([] : Text) = [] := by cases f <;> rfl
        rw [hrest, h0] at hc
        simp at hc
      · have hne := @hardCutF_ne_nil size f _ hrest
        rw [List.dropLast_cons_of_ne_nil hne] at hc
        rcases List.mem_cons.mp hc with rfl | hc
        · have hlen : size < (a :: t').length := by
            by_contra h
            exact hrest (List.drop_eq_nil_of_le (by omega))
          simp only [List.length_cons] at hlen
          simp [List.length_take]
          omega
        · refine ih _ ?_ c hc
          have := (a :: t').length_drop size
          simp only [List.length_cons] at ht this
          omega

/-! ### Lemmas about splitting -/

theorem splitKeepAux_flatten {sep : Text} :
    ∀ t cur skip, (splitKeepAux sep t cur skip).flatten = cur.reverse ++ t := by
  intro t
  induction t with
  | nil => intro cur skip; simp [splitKeepAux]
  | cons c rest ih =>
    intro cur skip
    match skip with
    | Nat.succ k => simp [splitKeepAux, ih]
    | 0 =>
      by_cases h : (c :: rest).take sep.length = sep
      · simp [splitKeepAux, h, ih]
      · simp [splitKeepAux, h, ih]

theorem splitPat_flatten (sep t : Text) : (splitPat sep t).flatten = t := by
  by_cases h : sep = []
  · subst h
    simp only [splitPat, if_pos rfl]
    induction t with
    | nil => simp
    | cons c rest ih => simpa using ih
  · simp [splitPat, h, splitKeepAux_flatten]

theorem length_le_of_mem_flatten {L : List Text} {p : Text} (hp : p ∈ L) :
    p.length ≤ L.flatten.length := by
  induction L with
  | nil => simp at hp
  | cons q L ih =>
    rcases List.mem_cons.mp hp with rfl | hp
    · simp
    · have := ih hp
      simp only [List.flatten_cons, List.length_append]
      omega

theorem adjustPieces_true (sep : Text) (ps : List Text) :
    adjustPieces sep true ps = ps := by
  simp [adjustPieces]

theorem adjustPieces_single (sep : Text) (ks : Bool) (p : Text) :
    adjustPieces sep ks [p] = [p] := by
  cases ks <;> simp [adjustPieces]

/-! ### Lemmas about greedy recombination -/

theorem length_lastN (n : Nat) (l : Text) : (lastN n l).length = min n l.length := by
  simp only [lastN, List.length_drop]
  omega

theorem mergeAnn_length_le {size overlap : Nat} {recur : Text → List (Nat × Text)}
    (hrec : ∀ p, size < p.length → ∀ c ∈ recur p, c.2.length ≤ size) :
    ∀ ps sl buf, buf.length ≤ size →
      ∀ c ∈ mergeAnn size overlap recur ps sl buf, c.2.length ≤ size := by
  intro ps
  induction ps with
  | nil =>
    intro sl buf hbuf c hc
    by_cases hb : buf = []
    · simp [mergeAnn, emitAnn, hb] at hc
    · simp [mergeAnn, emitAnn, hb] at hc
      rw [hc]
      exact hbuf
  | cons p ps ih =>
    intro sl buf hbuf c hc
    by_cases hbig : size < p.length
    · simp only [mergeAnn, if_pos hbig] at hc
      rcases List.mem_append.mp hc with hc | hc
      · rcases List.mem_append.mp hc with hc | hc
        · by_cases hb : buf = []
          · simp [emitAnn, hb] at hc
          · simp [emitAnn, hb] at hc
            rw [hc]
            exact hbuf
        · exact hrec p hbig c hc
      · exact ih 0 [] (by simp) c hc
    · have hple : p.length ≤ size := Nat.le_of_not_lt hbig
      by_cases hfit : buf.length + p.length ≤ size
      · simp only [mergeAnn, if_neg hbig, if_pos hfit] at hc
        refine ih sl (buf ++ p) ?_ c hc
        simp only [List.length_append]
        omega
      · simp only [mergeAnn, if_neg hbig, if_neg hfit] at hc
        rcases List.mem_cons.mp hc with rfl | hc
        · exact hbuf
        · refine ih _ _ ?_ c hc
          have hl := length_lastN (min overlap (size - p.length)) buf
          simp only [List.length_append, hl]
          omega

theorem mergeAnn_flatten_drop {size overlap : Nat} {recur : Text → List (Nat × Text)}
    (hrec : ∀ p, ((recur p).map (fun a => a.2.drop a.1)).flatten = p) :
    ∀ ps sl buf, sl ≤ buf.length →
      ((mergeAnn size overlap recur ps sl buf).map (fun a => a.2.drop a.1)).flatten
        = buf.drop sl ++ ps.flatten := by
  intro ps
  induction ps with
  | nil =>
    intro sl buf hsl
    by_cases hb : buf = []
    · subst hb
      simp [mergeAnn, emitAnn]
    · simp [mergeAnn, emitAnn, hb]
  | cons p ps ih =>
    intro sl buf hsl
    by_cases hbig : size < p.length
    · simp only [mergeAnn, if_pos hbig]
      by_cases hb : buf = []
      · subst hb
        simp [emitAnn, hrec, ih 0 [] (by simp)]
      · simp [emitAnn, hb, hrec, ih 0 [] (by simp), List.append_assoc]
    · have hple : p.length ≤ size := Nat.le_of_not_lt hbig
      by_cases hfit : buf.length + p.length ≤ size
      · simp only [mergeAnn, if_neg hbig, if_pos hfit]
        rw [ih sl (buf ++ p) (by simp only [List.length_append]; omega)]
        rw [List.drop_append_of_le_length hsl]
        simp [List.append_assoc]
      · simp only [mergeAnn, if_neg hbig, if_neg hfit]
        simp only [List.map_cons, List.flatten_cons]
        rw [ih _ _ (by simp only [List.length_append]; omega)]
        rw [List.drop_left]

theorem mergeAnn_all_fit {size overlap : Nat} {recur : Text → List (Nat × Text)} :
    ∀ ps sl buf, buf.length + ps.flatten.length ≤ size →
      mergeAnn size overlap recur ps sl buf = emitAnn sl (buf ++ ps.flatten) := by
  intro ps
  induction ps with
  | nil =>
    intro sl buf h
    simp [mergeAnn]
  | cons p ps ih =>
    intro sl buf h
    simp only [List.flatten_cons, List.length_append] at h
    have hbig : ¬ size < p.length := by omega
    have hfit : buf.length + p.length ≤ size := by omega
    simp only [mergeAnn, if_neg hbig, if_pos hfit]
    rw [ih sl (buf ++ p) (by simp only [List.length_append]; omega)]
    simp [List.append_assoc]

theorem mergeAnn_indep {size overlap : Nat} {r r' : Text → List (Nat × Text)} :
    ∀ ps, (∀ p ∈ ps, p.length ≤ size) → ∀ sl buf,
      mergeAnn size overlap r ps sl buf = mergeAnn size overlap r' ps sl buf := by
  intro ps
  induction ps with
  | nil =>
    intro _ sl buf
    simp [mergeAnn]
  | cons p ps ih =>
    intro hall sl buf
    have hple : p.length ≤ size := hall p (by simp)
    have hbig : ¬ size < p.length := by omega
    have htail : ∀ q ∈ ps, q.length ≤ size := fun q hq => hall q (by simp [hq])
    by_cases hfit : buf.length + p.length ≤ size
    · simp only [mergeAnn, if_neg hbig, if_pos hfit]
      exact ih htail sl (buf ++ p)
    · simp only [mergeAnn, if_neg hbig, if_neg hfit]
      rw [ih htail]

/-! ### Lemmas about the recursive chunker -/

theorem chunkAnn_length_le {size : Nat} (hs : 0 < size) (overlap : Nat) (ks : Bool) :
    ∀ pats t c, c ∈ chunkAnn size overlap ks pats t → c.2.length ≤ size := by
  intro pats
  induction pats with
  | nil =>
    intro t c hc
    simp only [chunkAnn] at hc
    rcases List.mem_map.mp hc with ⟨x, hx, rfl⟩
    exact hardCutF_length_le hs t.length t (Nat.le_refl _) x hx
  | cons sep ps ih =>
    intro t c hc
    simp only [chunkAnn] at hc
    exact mergeAnn_length_le (fun p _ c hc => ih p c hc) _ 0 [] (by simp) c hc

theorem chunkAnn_flatten_drop (size overlap : Nat) :
    ∀ pats t,
      ((chunkAnn size overlap true pats t).map (fun a => a.2.drop a.1)).flatten = t := by
  intro pats
  induction pats with
  | nil =>
    intro t
    simp only [chunkAnn, List.map_map]
    have : ((fun a : Nat × Text => a.2.drop a.1) ∘ fun c => ((0 : Nat), c)) = id := by
      funext c
      simp
    rw [this, List.map_id, hardCut, hardCutF_flatten]
  | cons sep ps ih =>
    intro t
    simp only [chunkAnn, adjustPieces_true]
    rw [mergeAnn_flatten_drop (fun p => ih p) _ 0 [] (Nat.le_refl 0)]
    simp [splitPat_flatten]

theorem chunkAnn_all_fit {size : Nat} (overlap : Nat) :
    ∀ pats t, t ≠ [] → t.length ≤ size →
      chunkAnn size overlap true pats t = [(0, t)] := by
  intro pats
  induction pats with
  | nil =>
    intro t ht hle
    simp only [chunkAnn, hardCut]
    rw [hardCutF_all_le _ _ hle]
    simp [ht]
  | cons sep ps ih =>
    intro t ht hle
    simp only [chunkAnn, adjustPieces_true]
    rw [mergeAnn_all_fit (splitPat sep t) 0 []
      (by simp [splitPat_flatten]; exact hle)]
    simp [splitPat_flatten, emitAnn, ht]

theorem chunkAnn_nil (size overlap : Nat) (ks : Bool) :
    ∀ pats, chunkAnn size overlap ks pats [] = [] := by
  intro pats
  cases pats with
  | nil => rfl
  | cons sep ps =>
    simp only [chunkAnn]
    by_cases h : sep = []
    · subst h
      simp [splitPat, adjustPieces, mergeAnn, emitAnn]
    · rw [show splitPat sep [] = [[]] from by simp [splitPat, h, splitKeepAux]]
      rw [adjustPieces_single]
      simp [mergeAnn, emitAnn]

theorem length_trimText_le (t : Text) : (trimText t).length ≤ t.length := by
  have h : ∀ (l : Text), (l.dropWhile isWhite).length ≤ l.length :=
    fun l => (List.dropWhile_sublist isWhite).length_le
  calc (trimText t).length
      = (((t.dropWhile isWhite).reverse.dropWhile isWhite)).length := by
        simp [trimText]
    _ ≤ (t.dropWhile isWhite).reverse.length := h _
    _ ≤ t.length := by
        simpa using h t

/-! ### Shared helper facts -/

theorem splitterChunks_nil (cfg : ChunkerConfig) : splitterChunks cfg [] = [] := by
  simp [splitterChunks, chunkAnnOf, chunkAnn_nil]

theorem mem_makeDirs {d p : String} {l : List String} :
    p ∈ makeDirs d l → p ∈ l ∨ p = d := by
  intro h
  simp only [makeDirs] at h
  split at h
  · exact Or.inl h
  · rcases List.mem_append.mp h with h | h
    · exact Or.inl h
    · simp at h
      exact Or.inr h

/-! ### Claims -/

/-- C1: for every configuration with a positive `chunk_size` — any input text
and any `split_patterns` list, including the degenerate pattern `''` — every
chunk emitted by the chunker has length at most `chunk_size` characters. -/
theorem c1_chunk_size_bound (cfg : ChunkerConfig) (t : Text)
    (hs : 0 < cfg.chunk_size) :
    ∀ c ∈ splitterChunks cfg t, c.length ≤ cfg.chunk_size := by
  intro c hc
  simp only [splitterChunks, chunkAnnOf] at hc
  by_cases htr : cfg.trim_whitespace
  · rw [if_pos htr] at hc
    rcases List.mem_map.mp hc with ⟨d, hd, rfl⟩
    rcases List.mem_map.mp hd with ⟨a, ha, rfl⟩
    exact Nat.le_trans (length_trimText_le _)
      (chunkAnn_length_le hs cfg.chunk_overlap cfg.keep_seperators
        cfg.split_patterns t a ha)
  · rw [if_neg htr] at hc
    rcases List.mem_map.mp hc with ⟨a, ha, rfl⟩
    exact chunkAnn_length_le hs cfg.chunk_overlap cfg.keep_seperators
      cfg.split_patterns t a ha

/-- Witness for C1 at the source's default configuration and a concrete
text. -/
theorem c1_chunk_size_bound_witness :
    0 < defaultChunkerConfig.chunk_size ∧
      ∀ c ∈ splitterChunks defaultChunkerConfig ['a', 'b', ' ', 'c'],
        c.length ≤ defaultChunkerConfig.chunk_size :=
  ⟨by decide, c1_chunk_size_bound defaultChunkerConfig ['a', 'b', ' ', 'c'] (by decide)⟩

/-- C2: the notebook binds the chunker output to `texts` but the ingestion
statement at source line 209 reads the name `documents`, which no statement
of the program ever binds, so evaluating the ingestion expression raises
`NameError` instead of storing the chunks. -/
theorem c2_ingestion_name_error :
    "texts" ∈ boundBeforeIngestion ∧
    "documents" ∉ allBoundNames ∧
    evalFreeNames boundBeforeIngestion ingestionFreeNames =
      PyResult.nameError "documents" :=
  ⟨by decide, by decide, by decide⟩

/-- C3 counterexample: the notebook's cleanup runs on every execution — there
is no rebuild request anywhere in the program — yet it deletes pre-existing
contents of the persistence path: a concrete prior file under the default
`db_persist_path` is present before and gone after. -/
theorem c3_cleanup_counterexample :
    "/dbfs/tmp/langchain_hls/db/index.bin" ∈
      (["/dbfs/tmp/langchain_hls/db", "/dbfs/tmp/langchain_hls/db/index.bin"] :
        List String) ∧
    "/dbfs/tmp/langchain_hls/db/index.bin" ∉
      notebookCleanup "/dbfs/tmp/langchain_hls/pdfs" "/dbfs/tmp/langchain_hls/db"
        ["/dbfs/tmp/langchain_hls/db", "/dbfs/tmp/langchain_hls/db/index.bin"] :=
  ⟨by decide, by decide⟩

/-- C3 (amended): clearing of the persistence path is unconditional — the
notebook has no rebuild flag, and every run removes every pre-existing entry
strictly below `db_persist_path`, whatever the prior file-system state. -/
theorem c3_cleanup_unconditional (pdfPath dbPath : String) (fs : List String)
    (p : String) (hdb : underPath dbPath p = true) (hne : p ≠ dbPath) :
    p ∉ notebookCleanup pdfPath dbPath fs := by
  intro hmem
  have hfilter : ∀ l : List String, p ∉ rmTree dbPath l := by
    intro l hl
    have h2 := (List.mem_filter.mp hl).2
    rw [hdb] at h2
    simp at h2
  simp only [notebookCleanup] at hmem
  rcases mem_makeDirs hmem with h | h
  · exact hfilter _ h
  · exact hne h

/-- Witness for C3 (amended) at a concrete prior state. -/
theorem c3_cleanup_unconditional_witness :
    underPath "/db" "/db/x" = true ∧ ("/db/x" : String) ≠ "/db" ∧
    "/db/x" ∉ notebookCleanup "/pdfs" "/db" ["/db/x"] :=
  ⟨by decide, by decide,
    c3_cleanup_unconditional "/pdfs" "/db" ["/db/x"] "/db/x" (by decide) (by decide)⟩

/-- C4 counterexample: constructing the splitter with `chunk_overlap = 10`
and `chunk_size = 5` does not fail with a configuration error — the
constructor stores the parameters and succeeds. -/
theorem c4_no_validation_counterexample :
    initJslCharSplitter 10 5 true true false [['\n', '\n'], ['\n'], [' '], []] true =
      Except.ok ⟨⟨⟨10, 5, true, true, false, [['\n', '\n'], ['\n'], [' '], []], true⟩⟩⟩ :=
  rfl

/-- C4 (amended): for every configuration with `chunk_overlap ≥ chunk_size`,
constructing the chunker succeeds with the parameters stored unvalidated; no
`ConfigurationError` is raised. -/
theorem c4_overlap_not_validated (co cs : Nat) (es ks pr : Bool)
    (sp : List Text) (tw : Bool) (_hge : cs ≤ co) :
    initJslCharSplitter co cs es ks pr sp tw =
      Except.ok ⟨⟨⟨co, cs, es, ks, pr, sp, tw⟩⟩⟩ :=
  rfl

/-- Witness for C4 (amended) at `chunk_overlap = 10`, `chunk_size = 5`. -/
theorem c4_overlap_not_validated_witness :
    5 ≤ 10 ∧
    initJslCharSplitter 10 5 true true false [[' ']] true =
      Except.ok ⟨⟨⟨10, 5, true, true, false, [[' ']], true⟩⟩⟩ :=
  ⟨by decide, c4_overlap_not_validated 10 5 true true false [[' ']] true (by decide)⟩

/-- C5 counterexample: the claim fails at two concrete inputs — the empty
document (length 0 ≤ chunk_size) produces zero chunks, not one; and with
separators not kept a three-character document within `chunk_size` produces a
chunk that differs from the document text. -/
theorem c5_single_chunk_counterexample :
    splitterChunks defaultChunkerConfig [] = [] ∧
    splitterChunks
      { chunk_overlap := 0, chunk_size := 20, explode_splits := true,
        keep_seperators := false, patterns_are_regex := false,
        split_patterns := [[' ']], trim_whitespace := false }
      ['a', ' ', 'b'] = [['a', 'b']] :=
  ⟨by decide, by decide⟩

/-- C5 (amended): for every configuration keeping separators and every
nonempty document whose text has length at most `chunk_size`, chunking yields
exactly one chunk, equal to the document text (trimmed when `trim_whitespace`
is set). -/
theorem c5_small_doc_single_chunk (cfg : ChunkerConfig) (t : Text)
    (hks : cfg.keep_seperators = true) (ht : t ≠ [])
    (hle : t.length ≤ cfg.chunk_size) :
    splitterChunks cfg t = [if cfg.trim_whitespace then trimText t else t] := by
  simp only [splitterChunks, chunkAnnOf, hks]
  rw [chunkAnn_all_fit cfg.chunk_overlap cfg.split_patterns t ht hle]
  by_cases htr : cfg.trim_whitespace
  · simp [htr]
  · simp [htr]

/-- Witness for C5 (amended) at the default configuration and a concrete
short document. -/
theorem c5_small_doc_single_chunk_witness :
    defaultChunkerConfig.keep_seperators = true ∧
    (['h', 'i', ' '] : Text) ≠ [] ∧
    (['h', 'i', ' '] : Text).length ≤ defaultChunkerConfig.chunk_size ∧
    splitterChunks defaultChunkerConfig ['h', 'i', ' '] =
      [if defaultChunkerConfig.trim_whitespace then trimText ['h', 'i', ' ']
       else ['h', 'i', ' ']] :=
  ⟨rfl, by decide, by decide,
    c5_small_doc_single_chunk defaultChunkerConfig ['h', 'i', ' ']
      rfl (by decide) (by decide)⟩

/-- C6: with separators kept and trimming off, the emitted chunks are the
annotated chunks, and concatenating them with each chunk's leading overlap
portion removed reconstructs the original document text exactly. -/
theorem c6_round_trip (cfg : ChunkerConfig) (t : Text)
    (hks : cfg.keep_seperators = true) (htr : cfg.trim_whitespace = false) :
    splitterChunks cfg t = (chunkAnnOf cfg t).map Prod.snd ∧
    ((chunkAnnOf cfg t).map (fun a => a.2.drop a.1)).flatten = t := by
  constructor
  · simp [splitterChunks, htr]
  · simp only [chunkAnnOf, hks]
    exact chunkAnn_flatten_drop cfg.chunk_size cfg.chunk_overlap cfg.split_patterns t

/-- Witness for C6 at a concrete overlapping configuration and text. -/
theorem c6_round_trip_witness :
    splitterChunks
        { chunk_overlap := 2, chunk_size := 5, explode_splits := true,
          keep_seperators := true, patterns_are_regex := false,
          split_patterns := [[' '], []], trim_whitespace := false }
        ['a', 'b', ' ', 'c', 'd', ' ', 'e'] =
      (chunkAnnOf
        { chunk_overlap := 2, chunk_size := 5, explode_splits := true,
          keep_seperators := true, patterns_are_regex := false,
          split_patterns := [[' '], []], trim_whitespace := false }
        ['a', 'b', ' ', 'c', 'd', ' ', 'e']).map Prod.snd ∧
    ((chunkAnnOf
        { chunk_overlap := 2, chunk_size := 5, explode_splits := true,
          keep_seperators := true, patterns_are_regex := false,
          split_patterns := [[' '], []], trim_whitespace := false }
        ['a', 'b', ' ', 'c', 'd', ' ', 'e']).map
          (fun a => a.2.drop a.1)).flatten = ['a', 'b', ' ', 'c', 'd', ' ', 'e'] :=
  c6_round_trip _ _ rfl rfl

/-- C7: the splitter tries patterns in the given order — when every piece of
the current pattern fits, the later patterns are never consulted; a piece not
containing the current separator and exceeding `chunk_size` is handled
entirely by the remaining patterns; and with no patterns left the text is
hard-cut into blocks of exactly `chunk_size` (the final block possibly
shorter), which concatenate back to the text. -/
theorem c7_pattern_strategy (size overlap : Nat) (ks : Bool) (sep : Text)
    (ps ps' : List Text) (t : Text) (hs : 0 < size) :
    ((∀ p ∈ adjustPieces sep ks (splitPat sep t), p.length ≤ size) →
      chunkAnn size overlap ks (sep :: ps) t = chunkAnn size overlap ks (sep :: ps') t) ∧
    (splitPat sep t = [t] → size < t.length →
      chunkAnn size overlap ks (sep :: ps) t = chunkAnn size overlap ks ps t) ∧
    (chunkAnn size overlap ks [] t = (hardCut size t).map (fun c => (0, c)) ∧
      (hardCut size t).flatten = t ∧
      ∀ c ∈ (hardCut size t).dropLast, c.length = size) := by
  refine ⟨?_, ?_, ?_, ?_, ?_⟩
  · intro hall
    simp only [chunkAnn]
    exact mergeAnn_indep _ hall 0 []
  · intro hsplit hbig
    simp only [chunkAnn, hsplit, adjustPieces_single]
    simp [mergeAnn, emitAnn, if_pos hbig, hbig]
  · rfl
  · exact hardCutF_flatten t.length t
  · exact hardCutF_dropLast_length hs t.length t (Nat.le_refl _)

/-- Witness for C7: the three conjuncts applied at concrete inputs. -/
theorem c7_pattern_strategy_witness :
    chunkAnn 2 0 true [[' '], ['x']] ['a', ' ', 'b'] =
      chunkAnn 2 0 true [[' ']] ['a', ' ', 'b'] ∧
    chunkAnn 2 0 true [[' '], []] ['a', 'b', 'c'] = chunkAnn 2 0 true [[]] ['a', 'b', 'c'] ∧
    ∀ c ∈ (hardCut 2 ['a', 'b', 'c']).dropLast, c.length = 2 :=
  ⟨(c7_pattern_strategy 2 0 true [' '] [['x']] [] ['a', ' ', 'b'] (by decide)).1
      (by decide),
   (c7_pattern_strategy 2 0 true [' '] [[]] [] ['a', 'b', 'c'] (by decide)).2.1
      (by decide) (by decide),
   (c7_pattern_strategy 2 0 true [' '] [] [] ['a', 'b', 'c'] (by decide)).2.2.2.2⟩

/-- C8: every chunk emitted from a source document carries that document's
metadata, value-unmodified by chunking (`split_hay_doc` builds each chunk
with `metadata = doc.metadata`). -/
theorem c8_metadata_inherited (pipe : LightPipeline) (doc : Doc) :
    ∀ c ∈ split_hay_doc pipe doc, c.metadata = doc.metadata := by
  intro c hc
  rcases List.mem_map.mp hc with ⟨s, _, rfl⟩
  rfl

/-- Witness for C8 at a concrete pipeline and document. -/
theorem c8_metadata_inherited_witness :
    (⟨['h', 'i'], [("source", "a.pdf")]⟩ : Doc) ∈
      split_hay_doc ⟨defaultChunkerConfig⟩ ⟨['h', 'i', ' '], [("source", "a.pdf")]⟩ ∧
    (⟨['h', 'i'], [("source", "a.pdf")]⟩ : Doc).metadata =
      (⟨['h', 'i', ' '], [("source", "a.pdf")]⟩ : Doc).metadata :=
  ⟨by decide,
    c8_metadata_inherited ⟨defaultChunkerConfig⟩ ⟨['h', 'i', ' '], [("source", "a.pdf")]⟩
      ⟨['h', 'i'], [("source", "a.pdf")]⟩ (by decide)⟩

/-- C9: empty input is not an error — an empty document produces zero chunks,
an empty document list splits to zero chunks, and ingesting an empty document
list returns a stored count of `0` with the collection unchanged and no
error. -/
theorem c9_empty_input_soft (pipe : LightPipeline)
    (embed : Text → Except String (List Int)) (col : Collection) (md : Metadata) :
    split_hay_doc pipe ⟨[], md⟩ = [] ∧
    split_hay_docs pipe [] = [] ∧
    ingest pipe embed [] col = Except.ok (0, col) := by
  refine ⟨?_, ?_, ?_⟩
  · simp [split_hay_doc, LightPipeline.splits, splitterChunks_nil]
  · simp [split_hay_docs]
  · simp [ingest, split_hay_docs, embedAll]

/-- C10: issuing the same similarity query twice against an unmodified
collection returns the same ordered result sequence, and that sequence is
ordered by increasing distance (decreasing similarity) with ties broken by
insertion order: every earlier result either has strictly smaller distance or
equal distance and a strictly smaller insertion index. -/
theorem c10_query_deterministic_stable (embed : Text → List Int)
    (dist : List Int → List Int → Nat) (col : Collection) (q : Text) (top_k : Nat) :
    queryCollection embed dist col q top_k = queryCollection embed dist col q top_k ∧
    (queryCollection embed dist col q top_k).Pairwise
      (fun a b => a.2.2 < b.2.2 ∨ (a.2.2 = b.2.2 ∧ a.1 < b.1)) := by
  refine ⟨rfl, ?_⟩
  have hsorted : (List.insertionSort queryOrder (scoredEntries dist (embed q) col)).Pairwise
      queryOrder :=
    List.sorted_insertionSort queryOrder (scoredEntries dist (embed q) col)
  have hperm : List.Perm (List.insertionSort queryOrder (scoredEntries dist (embed q) col))
      (scoredEntries dist (embed q) col) :=
    List.perm_insertionSort queryOrder (scoredEntries dist (embed q) col)
  have hfst : (scoredEntries dist (embed q) col).map Prod.fst =
      List.range col.entries.length := by
    rw [scoredEntries, List.map_map]
    rw [show (Prod.fst ∘ fun ie : Nat × Doc × List Int =>
        (ie.1, ie.2.1, dist (embed q) ie.2.2)) = Prod.fst from rfl]
    exact List.enum_map_fst col.entries
  have hnodup : ((scoredEntries dist (embed q) col).map Prod.fst).Nodup := by
    rw [hfst]
    exact List.nodup_range _
  have hne_scored : (scoredEntries dist (embed q) col).Pairwise
      (fun a b => a.1 ≠ b.1) := List.pairwise_map.mp hnodup
  have hne_sorted : (List.insertionSort queryOrder
      (scoredEntries dist (embed q) col)).Pairwise (fun a b => a.1 ≠ b.1) :=
    (hperm.pairwise_iff (fun h => Ne.symm h)).mpr hne_scored
  have hstrict : (List.insertionSort queryOrder
      (scoredEntries dist (embed q) col)).Pairwise
      (fun a b => a.2.2 < b.2.2 ∨ (a.2.2 = b.2.2 ∧ a.1 < b.1)) := by
    refine (hsorted.and hne_sorted).imp ?_
    intro a b hab
    rcases hab with ⟨hq, hne⟩
    rcases hq with h | ⟨heq, hle⟩
    · exact Or.inl h
    · exact Or.inr ⟨heq, Nat.lt_of_le_of_ne hle hne⟩
  simpa only [queryCollection] using
    hstrict.sublist (List.take_sublist top_k _)
